import Mathlib

/-!
# ThreadPoolParallelSort: a shallow embedding of `main.cpp`

The shared `std::vector<int>` is a `List Int`. The plan of `parallelSort` is
embedded twice. In `phase1Tasks`, `mergeFor`, `mergeLoop` and `parallelSort`
indices and counts are `Nat` and the index arithmetic is taken over unbounded
integers, with `/` the truncating division of the source. In `phase1Tasks32`,
`mergeFor32`, `mergeLoop32` and `parallelSort32` the same arithmetic is taken in
the source's 32-bit `int`, where the products `i * vectorSize` can overflow.
The two agree as long as `numThreads * vectorSize` fits an `int`
(`parallelSort32_eq`).

A task (`QRunnable`) is a value; running it is a function on the vector.
`QThreadPool::start` appends the task to the current wave and
`QThreadPool::waitForDone` runs the tasks of the wave to completion, in the
order they were submitted, before the orchestrator goes on.
-/

namespace ParallelSort

/-! ## The standard algorithms used by the tasks -/

/-- The result of `std::sort` on a range of `int`: the range's elements in
non-descending order (for `int` this result is unique). -/
def stdSort (l : List Int) : List Int :=
  l.insertionSort (· ≤ ·)

/-- Inner loop of `std::merge` while the head `x` of the first range is
pending: elements of the second range that are strictly smaller than `x` are
emitted first; `rest` continues once `x` has been emitted. -/
def mergeInto (x : Int) (xs : List Int) (rest : List Int → List Int) : List Int → List Int
  | [] => x :: xs
  | y :: ys => if y < x then y :: mergeInto x xs rest ys else x :: rest (y :: ys)

/-- The two-pointer loop of `std::merge(first1, last1, first2, last2, out)`:
while both ranges are non-empty, emit `*first2` if `*first2 < *first1` and
`*first1` otherwise; then copy what is left of either range. -/
def stdMerge : List Int → List Int → List Int
  | [], ys => ys
  | x :: xs, ys => mergeInto x xs (stdMerge xs) ys

/-- The elements of the iterator range `[data.begin() + first, data.begin() + last)`. -/
def slice (data : List Int) (first last : Nat) : List Int :=
  (data.drop first).take (last - first)

/-- Writing the elements `src` into the vector from position `pos` on, as
`std::copy(src.begin(), src.end(), data.begin() + pos)` does. -/
def overwrite (data : List Int) (pos : Nat) (src : List Int) : List Int :=
  data.take pos ++ src ++ data.drop (pos + src.length)

/-! ## The two kinds of task -/

/-- The fields of `class SortTask`. -/
structure SortTask where
  startIndex : Nat
  endIndex : Nat
  taskId : Nat
deriving DecidableEq

/-- `SortTask::run`: `std::sort(data->begin() + startIndex, data->begin() + endIndex)`,
in place. -/
def SortTask.run (t : SortTask) (data : List Int) : List Int :=
  overwrite data t.startIndex (stdSort (slice data t.startIndex t.endIndex))

/-- The fields of `class MergeTask`. -/
structure MergeTask where
  start1 : Nat
  end1 : Nat
  start2 : Nat
  end2 : Nat
  taskId : Nat
deriving DecidableEq

/-- The temporary vector `temp` that `MergeTask::run` fills with `std::merge`. -/
def MergeTask.temp (t : MergeTask) (data : List Int) : List Int :=
  stdMerge (slice data t.start1 t.end1) (slice data t.start2 t.end2)

/-- `MergeTask::run`: merge the two ranges into `temp`, then
`std::copy(temp.begin(), temp.end(), data->begin() + start1)`. -/
def MergeTask.run (t : MergeTask) (data : List Int) : List Int :=
  overwrite data t.start1 (t.temp data)

/-- A task handed to the thread pool. -/
inductive Runnable where
  | sortTask (t : SortTask)
  | mergeTask (t : MergeTask)
deriving DecidableEq

/-- `QRunnable::run` of a task. -/
def Runnable.run : Runnable → List Int → List Int
  | .sortTask t, data => t.run data
  | .mergeTask t, data => t.run data

/-- `QThreadPool::waitForDone`: every task of the wave runs to completion. -/
def runWave (tasks : List Runnable) (data : List Int) : List Int :=
  tasks.foldl (fun d t => t.run d) data

/-! ## `ParallelSorter::parallelSort` -/

/-- The tasks created by the phase 1 loop
`for (int i = 0; i < numThreads; i++)` of `parallelSort`. -/
def phase1Tasks (vectorSize numThreads : Nat) : List SortTask :=
  let chunkSize := vectorSize / numThreads
  (List.range numThreads).map fun i =>
    let start := i * chunkSize
    let end_ := if i = numThreads - 1 then vectorSize else (i + 1) * chunkSize
    SortTask.mk start end_ i

/-- The loop `for (int i = 0; i < numChunks; i += 2)` inside the merge loop,
from the loop variable `i` on, with the current `mergeTaskId` and
`newNumChunks`. It returns the merge tasks started, and the final `mergeTaskId`
and `newNumChunks`; `none` if the fuel runs out before the loop exits. -/
def mergeFor (vectorSize numThreads numChunks : Nat) :
    Nat → Nat → Nat → Nat → Option (List MergeTask × Nat × Nat)
  | 0, i, mergeTaskId, newNumChunks =>
    if i < numChunks then none else some ([], mergeTaskId, newNumChunks)
  | fuel + 1, i, mergeTaskId, newNumChunks =>
    if i < numChunks then
      if i + 1 < numChunks then
        let start1 := (i * vectorSize) / numThreads
        let end1 := ((i + 1) * vectorSize) / numThreads
        let start2 := end1
        let end2 := ((i + 2) * vectorSize) / numThreads
        let end2 := if i + 2 = numChunks then vectorSize else end2
        let mergeTask := MergeTask.mk start1 end1 start2 end2 mergeTaskId
        match mergeFor vectorSize numThreads numChunks fuel (i + 2) (mergeTaskId + 1)
            (newNumChunks + 1) with
        | some (tasks, mergeTaskId', newNumChunks') =>
          some (mergeTask :: tasks, mergeTaskId', newNumChunks')
        | none => none
      else
        mergeFor vectorSize numThreads numChunks fuel (i + 2) mergeTaskId newNumChunks
    else some ([], mergeTaskId, newNumChunks)

/-- The state of `parallelSort` between two waves: the vector and the waves of
tasks dispatched so far, oldest first. -/
structure SorterState where
  data : List Int
  waves : List (List Runnable)
deriving DecidableEq

/-- The loop `while (numChunks > 1)` of `parallelSort`: one merge wave per
iteration, each followed by `waitForDone`; `none` if the fuel runs out before
the loop exits. -/
def mergeLoop (vectorSize numThreads : Nat) :
    Nat → Nat → Nat → SorterState → Option SorterState
  | 0, numChunks, _, s => if numChunks > 1 then none else some s
  | fuel + 1, numChunks, mergeTaskId, s =>
    if numChunks > 1 then
      match mergeFor vectorSize numThreads numChunks numChunks 0 mergeTaskId 0 with
      | some (tasks, mergeTaskId', newNumChunks) =>
        let wave := tasks.map Runnable.mergeTask
        mergeLoop vectorSize numThreads fuel newNumChunks mergeTaskId'
          ⟨runWave wave s.data, s.waves ++ [wave]⟩
      | none => none
    else some s

/-- `ParallelSorter::parallelSort` on the vector `data` with a pool of
`numThreads` threads: the chunk-sort wave, then the merge loop. The division
`vectorSize / numThreads` has no result for `numThreads = 0`. -/
def parallelSort (data : List Int) (numThreads : Nat) : Option SorterState :=
  let vectorSize := data.length
  if numThreads = 0 then none
  else
    let wave := (phase1Tasks vectorSize numThreads).map Runnable.sortTask
    let numChunks := numThreads
    let mergeTaskId := 0
    mergeLoop vectorSize numThreads numThreads numChunks mergeTaskId ⟨runWave wave data, [wave]⟩

/-- Non-descending order as the specification writes it:
for all `i` in `[1, N)`, `l[i-1] ≤ l[i]`. -/
def NonDescending (l : List Int) : Prop :=
  ∀ i, 1 ≤ i → i < l.length → l.getD (i - 1) 0 ≤ l.getD i 0

/-- A chunk-sort task whose range is well-formed inside a vector of `n` elements. -/
def SortTask.InBounds (t : SortTask) (n : Nat) : Prop :=
  t.startIndex ≤ t.endIndex ∧ t.endIndex ≤ n

/-- A merge task whose two ranges are adjacent and well-formed inside a vector
of `n` elements. -/
def MergeTask.InBounds (t : MergeTask) (n : Nat) : Prop :=
  t.start1 ≤ t.end1 ∧ t.end1 = t.start2 ∧ t.start2 ≤ t.end2 ∧ t.end2 ≤ n

/-- Well-formedness of either kind of task. -/
def Runnable.InBounds : Runnable → Nat → Prop
  | .sortTask t, n => t.InBounds n
  | .mergeTask t, n => t.InBounds n

/-- Every task dispatched during the run, in order of submission. -/
def SorterState.dispatched (s : SorterState) : List Runnable :=
  s.waves.flatten

/-- The number of iterations of `while (numChunks > 1)` that the run made:
every wave after the chunk-sort wave is one iteration. -/
def SorterState.mergeWaves (s : SorterState) : Nat :=
  s.waves.length - 1

/-- The first index a task writes: `startIndex` of a chunk sort, `start1` of a
merge (which copies `temp` back from `start1` on). -/
def Runnable.writeStart : Runnable → Nat
  | .sortTask t => t.startIndex
  | .mergeTask t => t.start1

/-- The end of the index range a task writes: `endIndex` of a chunk sort,
`end2` of a merge. -/
def Runnable.writeEnd : Runnable → Nat
  | .sortTask t => t.endIndex
  | .mergeTask t => t.end2

/-- The task writes index `k`: `k` lies in its half-open range. -/
def Runnable.Writes (r : Runnable) (k : Nat) : Prop :=
  r.writeStart ≤ k ∧ k < r.writeEnd

/-- The number of elements in the range of a chunk-sort task. -/
def SortTask.size (t : SortTask) : Nat :=
  t.endIndex - t.startIndex

/-- The loop `for (size_t i = 1; i < vec.size(); i++)` of `isSorted`, from the
loop variable `i` on: `false` at the first `i` with `vec[i] < vec[i-1]`, `true`
when the loop exits; `none` if the fuel runs out before it returns. -/
def isSortedLoop (vec : List Int) : Nat → Nat → Option Bool
  | 0, i => if i < vec.length then none else some true
  | fuel + 1, i =>
    if i < vec.length then
      if vec.getD i 0 < vec.getD (i - 1) 0 then some false
      else isSortedLoop vec fuel (i + 1)
    else some true

/-- The helper `isSorted` of `main.cpp`. -/
def isSorted (vec : List Int) : Option Bool :=
  isSortedLoop vec vec.length 1

/-! ## The index arithmetic in the source's 32-bit `int`

The definitions above compute the bounds of the tasks over unbounded integers.
The source computes them in `int`: the definitions below repeat the plan of
`parallelSort` with every product, quotient and conversion taken in 32-bit
two's complement, and with tasks that carry `int` arguments, which may be
negative. A task whose iterator ranges do not lie inside the vector has no
result. The loop counters `i`, `mergeTaskId` and `newNumChunks` never exceed
`numThreads + 1` and stay natural numbers. -/

/-- The `int` arguments with which a `SortTask` is constructed. -/
structure SortTask32 where
  startIndex : Int
  endIndex : Int
  taskId : Int
deriving DecidableEq

/-- `SortTask::run` on `int` arguments: defined when
`[begin + startIndex, begin + endIndex)` is a range of the vector. -/
def SortTask32.run (t : SortTask32) (data : List Int) : Option (List Int) :=
  if 0 ≤ t.startIndex ∧ t.startIndex ≤ t.endIndex ∧ t.endIndex ≤ data.length then
    some ((SortTask.mk t.startIndex.toNat t.endIndex.toNat t.taskId.toNat).run data)
  else none

/-- The `int` arguments with which a `MergeTask` is constructed. -/
structure MergeTask32 where
  start1 : Int
  end1 : Int
  start2 : Int
  end2 : Int
  taskId : Int
deriving DecidableEq

/-- `MergeTask::run` on `int` arguments: defined when both input ranges are
ranges of the vector and the copy of `temp` from `start1` on ends inside it. -/
def MergeTask32.run (t : MergeTask32) (data : List Int) : Option (List Int) :=
  if 0 ≤ t.start1 ∧ t.start1 ≤ t.end1 ∧ t.end1 ≤ data.length ∧
      0 ≤ t.start2 ∧ t.start2 ≤ t.end2 ∧ t.end2 ≤ data.length ∧
      t.start1 + (t.end1 - t.start1) + (t.end2 - t.start2) ≤ data.length then
    some ((MergeTask.mk t.start1.toNat t.end1.toNat t.start2.toNat t.end2.toNat
      t.taskId.toNat).run data)
  else none

/-- A task with `int` arguments handed to the thread pool. -/
inductive Runnable32 where
  | sortTask (t : SortTask32)
  | mergeTask (t : MergeTask32)
deriving DecidableEq

/-- `QRunnable::run` of a task with `int` arguments. -/
def Runnable32.run : Runnable32 → List Int → Option (List Int)
  | .sortTask t, data => t.run data
  | .mergeTask t, data => t.run data

/-- The first index of the range a task with `int` arguments writes. -/
def Runnable32.writeStart : Runnable32 → Int
  | .sortTask t => t.startIndex
  | .mergeTask t => t.start1

/-- The end of the range a task with `int` arguments writes. -/
def Runnable32.writeEnd : Runnable32 → Int
  | .sortTask t => t.endIndex
  | .mergeTask t => t.end2

/-- The task writes index `k`: `k` lies in its half-open range. -/
def Runnable32.Writes (r : Runnable32) (k : Int) : Prop :=
  r.writeStart ≤ k ∧ k < r.writeEnd

/-- The state of `parallelSort` between two waves, the tasks with their `int`
arguments. -/
structure SorterState32 where
  data : List Int
  waves : List (List Runnable32)
deriving DecidableEq

/-- A chunk-sort task written with `int` arguments. -/
def SortTask.toInt (t : SortTask) : SortTask32 :=
  ⟨(t.startIndex : Int), (t.endIndex : Int), (t.taskId : Int)⟩

/-- A merge task written with `int` arguments. -/
def MergeTask.toInt (t : MergeTask) : MergeTask32 :=
  ⟨(t.start1 : Int), (t.end1 : Int), (t.start2 : Int), (t.end2 : Int), (t.taskId : Int)⟩

/-- A task written with `int` arguments. -/
def Runnable.toInt : Runnable → Runnable32
  | .sortTask t => .sortTask t.toInt
  | .mergeTask t => .mergeTask t.toInt

/-- A state written with `int` task arguments. -/
def SorterState.toInt (s : SorterState) : SorterState32 :=
  ⟨s.data, s.waves.map (fun wave => wave.map Runnable.toInt)⟩

/-! ## Ranges of the vector -/

theorem slice_length (data : List Int) (s e : Nat) (he : e ≤ data.length) :
    (slice data s e).length = e - s := by
  unfold slice
  rw [List.length_take, List.length_drop]
  omega

theorem slice_decomp (data : List Int) (s e : Nat) (hse : s ≤ e) :
    data = data.take s ++ slice data s e ++ data.drop e := by
  unfold slice
  have h1 : data.drop e = (data.drop s).drop (e - s) := by
    rw [List.drop_drop]
    congr 1
    omega
  rw [h1, List.append_assoc, List.take_append_drop, List.take_append_drop]

theorem overwrite_eq (data src : List Int) (s e : Nat) (hse : s ≤ e)
    (hlen : src.length = e - s) :
    overwrite data s src = data.take s ++ src ++ data.drop e := by
  unfold overwrite
  have : s + src.length = e := by omega
  rw [this]

theorem overwrite_length (data src : List Int) (s e : Nat) (hse : s ≤ e)
    (he : e ≤ data.length) (hlen : src.length = e - s) :
    (overwrite data s src).length = data.length := by
  rw [overwrite_eq data src s e hse hlen]
  simp only [List.length_append, List.length_take, List.length_drop]
  omega

theorem overwrite_perm (data src : List Int) (s e : Nat) (hse : s ≤ e)
    (he : e ≤ data.length) (hperm : src.Perm (slice data s e)) :
    (overwrite data s src).Perm data := by
  have hlen : src.length = e - s := by
    rw [hperm.length_eq, slice_length data s e he]
  rw [overwrite_eq data src s e hse hlen]
  conv_rhs => rw [slice_decomp data s e hse]
  exact (List.Perm.append_left _ hperm).append_right _

theorem overwrite_self (data src : List Int) (s e : Nat) (hse : s ≤ e)
    (he : e ≤ data.length) (heq : src = slice data s e) :
    overwrite data s src = data := by
  have hlen : src.length = e - s := by
    rw [heq, slice_length data s e he]
  rw [overwrite_eq data src s e hse hlen, heq]
  exact (slice_decomp data s e hse).symm

theorem slice_overwrite (data src : List Int) (s e : Nat) (hse : s ≤ e)
    (he : e ≤ data.length) (hlen : src.length = e - s) :
    slice (overwrite data s src) s e = src := by
  rw [overwrite_eq data src s e hse hlen]
  unfold slice
  have hs : (data.take s).length = s := by
    rw [List.length_take]; omega
  rw [List.append_assoc, List.drop_append_of_le_length (by omega)]
  rw [List.drop_of_length_le (by omega), List.nil_append]
  rw [List.take_append_of_le_length (by omega)]
  exact List.take_of_length_le (by omega)

theorem overwrite_getElem?_lt (data src : List Int) (s i : Nat) (hs : s ≤ data.length)
    (hi : i < s) : (overwrite data s src)[i]? = data[i]? := by
  unfold overwrite
  rw [List.append_assoc, List.getElem?_append_left (by rw [List.length_take]; omega)]
  rw [List.getElem?_take_of_lt hi]

theorem overwrite_getElem?_ge (data src : List Int) (s e i : Nat) (hse : s ≤ e)
    (he : e ≤ data.length) (hlen : src.length = e - s) (hi : e ≤ i) :
    (overwrite data s src)[i]? = data[i]? := by
  rw [overwrite_eq data src s e hse hlen]
  have hl : (data.take s ++ src).length = e := by
    rw [List.length_append, List.length_take]; omega
  rw [List.getElem?_append_right (by omega), hl, List.getElem?_drop]
  congr 1
  omega


/-! ## `std::sort` and `std::merge` -/

theorem stdSort_perm (l : List Int) : (stdSort l).Perm l :=
  List.perm_insertionSort _ l

theorem stdSort_sorted (l : List Int) : (stdSort l).Sorted (· ≤ ·) :=
  List.sorted_insertionSort _ l

theorem stdMerge_nil_left (ys : List Int) : stdMerge [] ys = ys := rfl

theorem stdMerge_nil_right (xs : List Int) : stdMerge xs [] = xs := by
  cases xs <;> rfl

/-- The loop body of `std::merge` when both ranges are non-empty. -/
theorem stdMerge_cons_cons (x y : Int) (xs ys : List Int) :
    stdMerge (x :: xs) (y :: ys) =
      if y < x then y :: stdMerge (x :: xs) ys else x :: stdMerge xs (y :: ys) := rfl

theorem stdMerge_perm : ∀ xs ys : List Int, (stdMerge xs ys).Perm (xs ++ ys)
  | [], ys => by rw [stdMerge_nil_left]; exact List.Perm.refl _
  | x :: xs, [] => by rw [stdMerge_nil_right, List.append_nil]
  | x :: xs, y :: ys => by
    rw [stdMerge_cons_cons]
    split
    · have ih := stdMerge_perm (x :: xs) ys
      exact (List.Perm.cons y ih).trans List.perm_middle.symm
    · have ih := stdMerge_perm xs (y :: ys)
      exact List.Perm.cons x ih
termination_by xs ys => xs.length + ys.length

theorem stdMerge_sorted : ∀ xs ys : List Int, xs.Sorted (· ≤ ·) → ys.Sorted (· ≤ ·) →
    (stdMerge xs ys).Sorted (· ≤ ·)
  | [], ys, _, h2 => by rw [stdMerge_nil_left]; exact h2
  | x :: xs, [], h1, _ => by rw [stdMerge_nil_right]; exact h1
  | x :: xs, y :: ys, h1, h2 => by
    rw [stdMerge_cons_cons]
    have hx := List.rel_of_sorted_cons h1
    have hy := List.rel_of_sorted_cons h2
    split
    · rename_i hlt
      refine List.sorted_cons.mpr ⟨?_, stdMerge_sorted (x :: xs) ys h1 h2.of_cons⟩
      intro b hb
      rcases List.mem_append.mp ((stdMerge_perm (x :: xs) ys).subset hb) with hb | hb
      · rcases List.mem_cons.mp hb with rfl | hb
        · exact le_of_lt hlt
        · exact le_trans (le_of_lt hlt) (hx b hb)
      · exact hy b hb
    · rename_i hnlt
      have hxy : x ≤ y := not_lt.mp hnlt
      refine List.sorted_cons.mpr ⟨?_, stdMerge_sorted xs (y :: ys) h1.of_cons h2⟩
      intro b hb
      rcases List.mem_append.mp ((stdMerge_perm xs (y :: ys)).subset hb) with hb | hb
      · exact hx b hb
      · rcases List.mem_cons.mp hb with rfl | hb
        · exact hxy
        · exact le_trans hxy (hy b hb)
termination_by xs ys _ _ => xs.length + ys.length

/-- A sorted list is determined by its elements. -/
theorem sorted_perm_unique {l₁ l₂ : List Int} (hp : l₁.Perm l₂)
    (h1 : l₁.Sorted (· ≤ ·)) (h2 : l₂.Sorted (· ≤ ·)) : l₁ = l₂ :=
  List.eq_of_perm_of_sorted hp h1 h2

/-- The adjacent-pair formulation of the specification is the usual notion of
a sorted list. -/
theorem nonDescending_iff_sorted (l : List Int) :
    NonDescending l ↔ l.Sorted (· ≤ ·) := by
  unfold NonDescending
  induction l with
  | nil => simp
  | cons a l ih =>
    rw [List.sorted_cons, ← ih]
    constructor
    · intro h
      have htail : ∀ i, 1 ≤ i → i < l.length → l.getD (i - 1) 0 ≤ l.getD i 0 := by
        intro i hi hlt
        have := h (i + 1) (by omega) (by simp; omega)
        obtain ⟨j, rfl⟩ : ∃ j, i = j + 1 := ⟨i - 1, by omega⟩
        simpa using this
      refine ⟨?_, htail⟩
      have hall : ∀ n, n < l.length → a ≤ l.getD n 0 := by
        intro n
        induction n with
        | zero =>
          intro hn
          have := h 1 (le_refl 1) (by simp; omega)
          simpa using this
        | succ n ihn =>
          intro hn
          exact le_trans (ihn (by omega)) (by simpa using htail (n + 1) (by omega) hn)
      intro b hb
      obtain ⟨n, hn, rfl⟩ := List.getElem_of_mem hb
      have := hall n hn
      rwa [List.getD_eq_getElem _ _ hn] at this
    · rintro ⟨hhead, htail⟩ i hi hlt
      obtain ⟨j, rfl⟩ : ∃ j, i = j + 1 := ⟨i - 1, by omega⟩
      have hj : j < l.length := by simpa using hlt
      cases j with
      | zero =>
        simp only [zero_add, Nat.sub_self, List.getD_cons_zero, List.getD_cons_succ]
        rw [List.getD_eq_getElem _ _ hj]
        exact hhead _ (List.getElem_mem _)
      | succ j =>
        have := htail (j + 1) (by omega) hj
        simpa using this

theorem slice_sorted (data : List Int) (s e : Nat) (h : data.Sorted (· ≤ ·)) :
    (slice data s e).Sorted (· ≤ ·) := by
  unfold slice
  exact (h.sublist (List.drop_sublist _ _)).sublist (List.take_sublist _ _)

/-- Two adjacent ranges make up the range that spans both. -/
theorem slice_append (data : List Int) (s m e : Nat) (hsm : s ≤ m) (hme : m ≤ e) :
    slice data s m ++ slice data m e = slice data s e := by
  unfold slice
  have h1 : data.drop m = (data.drop s).drop (m - s) := by
    rw [List.drop_drop]; congr 1; omega
  have h2 : e - s = (m - s) + (e - m) := by omega
  rw [h1, h2, List.take_add]


/-! ## Single tasks -/

theorem sortTask_run_length (t : SortTask) (data : List Int) (h : t.InBounds data.length) :
    (t.run data).length = data.length := by
  unfold SortTask.run
  apply overwrite_length data _ t.startIndex t.endIndex h.1 h.2
  rw [(stdSort_perm _).length_eq, slice_length data _ _ h.2]

theorem sortTask_run_perm (t : SortTask) (data : List Int) (h : t.InBounds data.length) :
    (t.run data).Perm data :=
  overwrite_perm data _ t.startIndex t.endIndex h.1 h.2 (stdSort_perm _)

theorem sortTask_run_of_sorted (t : SortTask) (data : List Int) (h : t.InBounds data.length)
    (hs : data.Sorted (· ≤ ·)) : t.run data = data := by
  apply overwrite_self data _ t.startIndex t.endIndex h.1 h.2
  exact sorted_perm_unique (stdSort_perm _) (stdSort_sorted _) (slice_sorted data _ _ hs)

theorem mergeTask_temp_perm (t : MergeTask) (data : List Int) (h : t.InBounds data.length) :
    (t.temp data).Perm (slice data t.start1 t.end2) := by
  unfold MergeTask.temp
  obtain ⟨h1, h2, h3, _⟩ := h
  rw [← slice_append data t.start1 t.end1 t.end2 h1 (h2 ▸ h3), ← h2]
  exact stdMerge_perm _ _

theorem mergeTask_temp_length (t : MergeTask) (data : List Int) (h : t.InBounds data.length) :
    (t.temp data).length = t.end2 - t.start1 := by
  rw [(mergeTask_temp_perm t data h).length_eq, slice_length data _ _ h.2.2.2]

theorem mergeTask_start1_le_end2 (t : MergeTask) (n : Nat) (h : t.InBounds n) :
    t.start1 ≤ t.end2 := by
  obtain ⟨h1, h2, h3, _⟩ := h
  omega

theorem mergeTask_run_length (t : MergeTask) (data : List Int) (h : t.InBounds data.length) :
    (t.run data).length = data.length :=
  overwrite_length data _ t.start1 t.end2 (mergeTask_start1_le_end2 t _ h) h.2.2.2 (mergeTask_temp_length t data h)

theorem mergeTask_run_perm (t : MergeTask) (data : List Int) (h : t.InBounds data.length) :
    (t.run data).Perm data :=
  overwrite_perm data _ t.start1 t.end2 (mergeTask_start1_le_end2 t _ h) h.2.2.2 (mergeTask_temp_perm t data h)

theorem mergeTask_run_of_sorted (t : MergeTask) (data : List Int) (h : t.InBounds data.length)
    (hs : data.Sorted (· ≤ ·)) : t.run data = data := by
  apply overwrite_self data _ t.start1 t.end2 (mergeTask_start1_le_end2 t _ h) h.2.2.2
  refine sorted_perm_unique (mergeTask_temp_perm t data h) ?_ (slice_sorted data _ _ hs)
  exact stdMerge_sorted _ _ (slice_sorted data _ _ hs) (slice_sorted data _ _ hs)

theorem runnable_run_perm (r : Runnable) (data : List Int) (h : r.InBounds data.length) :
    (r.run data).Perm data := by
  cases r with
  | sortTask t => exact sortTask_run_perm t data h
  | mergeTask t => exact mergeTask_run_perm t data h

theorem runnable_run_of_sorted (r : Runnable) (data : List Int) (h : r.InBounds data.length)
    (hs : data.Sorted (· ≤ ·)) : r.run data = data := by
  cases r with
  | sortTask t => exact sortTask_run_of_sorted t data h hs
  | mergeTask t => exact mergeTask_run_of_sorted t data h hs

/-- A wave of well-formed tasks keeps every property that each well-formed
task keeps. -/
theorem runWave_preserves (n : Nat) (Inv : List Int → Prop)
    (hstep : ∀ (r : Runnable) (d : List Int), r.InBounds n → Inv d → Inv (r.run d)) :
    ∀ (tasks : List Runnable) (d : List Int), (∀ r ∈ tasks, r.InBounds n) → Inv d →
      Inv (runWave tasks d) := by
  intro tasks
  induction tasks with
  | nil => intro d _ hd; exact hd
  | cons r rs ih =>
    intro d hb hd
    unfold runWave
    rw [List.foldl_cons]
    exact ih (r.run d) (fun r' hr' => hb r' (List.mem_cons_of_mem _ hr'))
      (hstep r d (hb r (List.mem_cons_self _ _)) hd)


/-! ## The plan of `parallelSort` -/

theorem phase1Tasks_length (n w : Nat) : (phase1Tasks n w).length = w := by
  simp [phase1Tasks]

theorem phase1Tasks_getElem? (n w i : Nat) (hi : i < w) :
    (phase1Tasks n w)[i]? =
      some (SortTask.mk (i * (n / w)) (if i = w - 1 then n else (i + 1) * (n / w)) i) := by
  simp [phase1Tasks, List.getElem?_range hi]

theorem chunk_mul_le (n w i : Nat) (hi : i ≤ w) : i * (n / w) ≤ n :=
  le_trans (Nat.mul_le_mul_right _ hi) (Nat.mul_div_le n w)

theorem phase1Tasks_inBounds (n w : Nat) :
    ∀ t ∈ phase1Tasks n w, t.InBounds n := by
  intro t ht
  simp only [phase1Tasks, List.mem_map, List.mem_range] at ht
  obtain ⟨i, hi, rfl⟩ := ht
  unfold SortTask.InBounds
  dsimp only
  split
  · exact ⟨chunk_mul_le n w i (by omega), le_refl _⟩
  · exact ⟨Nat.mul_le_mul_right _ (by omega), chunk_mul_le n w (i + 1) (by omega)⟩

theorem scaled_bound_le (n w i : Nat) (hi : i ≤ w) : i * n / w ≤ n := by
  rcases Nat.eq_zero_or_pos w with rfl | hw
  · simp
  · exact Nat.div_le_of_le_mul (Nat.mul_le_mul_right _ hi)

theorem scaled_bound_mono (n w i j : Nat) (hij : i ≤ j) : i * n / w ≤ j * n / w :=
  Nat.div_le_div_right (Nat.mul_le_mul_right _ hij)

/-- The `for` loop of a merge wave exits when it has fuel for its remaining
iterations; it counts one new chunk per pair and every task it starts is
well-formed. -/
theorem mergeFor_spec (n w numChunks : Nat) (hc : numChunks ≤ w) :
    ∀ (fuel i mergeTaskId newNumChunks : Nat), numChunks ≤ i + 2 * fuel →
      ∃ tasks mergeTaskId',
        mergeFor n w numChunks fuel i mergeTaskId newNumChunks =
          some (tasks, mergeTaskId', newNumChunks + (numChunks - i) / 2) ∧
        ∀ t ∈ tasks, t.InBounds n := by
  intro fuel
  induction fuel with
  | zero =>
    intro i id new h
    refine ⟨[], id, ?_, by simp⟩
    have h0 : (numChunks - i) / 2 = 0 := by omega
    simp only [mergeFor, h0, Nat.add_zero]
    rw [if_neg (by omega)]
  | succ fuel ih =>
    intro i id new h
    by_cases h1 : i < numChunks
    · by_cases h2 : i + 1 < numChunks
      · obtain ⟨tasks, id', heq, hb⟩ := ih (i + 2) (id + 1) (new + 1) (by omega)
        have hcount : new + 1 + (numChunks - (i + 2)) / 2 = new + (numChunks - i) / 2 := by
          omega
        refine ⟨MergeTask.mk (i * n / w) ((i + 1) * n / w) ((i + 1) * n / w)
          (if i + 2 = numChunks then n else (i + 2) * n / w) id :: tasks, id', ?_, ?_⟩
        · simp only [mergeFor, if_pos h1, if_pos h2, heq, hcount]
        · intro t ht
          rcases List.mem_cons.mp ht with rfl | ht
          · refine ⟨scaled_bound_mono n w _ _ (by omega), rfl, ?_, ?_⟩
            · dsimp only
              split
              · exact scaled_bound_le n w _ (by omega)
              · exact scaled_bound_mono n w _ _ (by omega)
            · dsimp only
              split
              · exact le_refl _
              · exact scaled_bound_le n w _ (by omega)
          · exact hb t ht
      · obtain ⟨tasks, id', heq, hb⟩ := ih (i + 2) id new (by omega)
        have h0 : (numChunks - (i + 2)) / 2 = 0 := by omega
        have h0' : (numChunks - i) / 2 = 0 := by omega
        refine ⟨tasks, id', ?_, hb⟩
        simp only [mergeFor, if_pos h1, if_neg h2, heq, h0, h0']
    · refine ⟨[], id, ?_, by simp⟩
      have h0 : (numChunks - i) / 2 = 0 := by omega
      simp only [mergeFor, if_neg h1, h0, Nat.add_zero]

/-- The `while` loop exits when its fuel is at least `numChunks`; the waves it
adds hold well-formed merge tasks only, and it keeps every property of the
vector that each well-formed task keeps. -/
theorem mergeLoop_spec (n w : Nat) (Inv : List Int → Prop)
    (hstep : ∀ (r : Runnable) (d : List Int), r.InBounds n → Inv d → Inv (r.run d)) :
    ∀ (fuel numChunks mergeTaskId : Nat) (s : SorterState), numChunks ≤ fuel →
      numChunks ≤ w → Inv s.data →
      ∃ s' more, mergeLoop n w fuel numChunks mergeTaskId s = some s' ∧ Inv s'.data ∧
        s'.waves = s.waves ++ more ∧
        ∀ wave ∈ more, ∀ r ∈ wave, r.InBounds n ∧ ∃ t, r = Runnable.mergeTask t := by
  intro fuel
  induction fuel with
  | zero =>
    intro numChunks id s hf _ hinv
    refine ⟨s, [], ?_, hinv, by simp, by simp⟩
    simp only [mergeLoop]
    rw [if_neg (by omega)]
  | succ fuel ih =>
    intro numChunks id s hf hw hinv
    by_cases h1 : numChunks > 1
    · obtain ⟨tasks, id', heq, hb⟩ := mergeFor_spec n w numChunks hw numChunks 0 id 0 (by omega)
      have hwave : ∀ r ∈ tasks.map Runnable.mergeTask,
          r.InBounds n ∧ ∃ t, r = Runnable.mergeTask t := by
        intro r hr
        obtain ⟨t, ht, rfl⟩ := List.mem_map.mp hr
        exact ⟨hb t ht, t, rfl⟩
      have hinv' : Inv (runWave (tasks.map Runnable.mergeTask) s.data) :=
        runWave_preserves n Inv hstep _ _ (fun r hr => (hwave r hr).1) hinv
      obtain ⟨s', more, heq', hinv'', hwaves, hmore⟩ :=
        ih (0 + (numChunks - 0) / 2) id'
          ⟨runWave (tasks.map Runnable.mergeTask) s.data,
            s.waves ++ [tasks.map Runnable.mergeTask]⟩
          (by omega) (by omega) hinv'
      refine ⟨s', tasks.map Runnable.mergeTask :: more, ?_, hinv'', ?_, ?_⟩
      · simp only [mergeLoop, if_pos h1, heq]
        exact heq'
      · rw [hwaves]; simp
      · intro wave hwv
        rcases List.mem_cons.mp hwv with rfl | hwv
        · exact hwave
        · exact hmore wave hwv
    · refine ⟨s, [], ?_, hinv, by simp, by simp⟩
      simp only [mergeLoop, if_neg h1]

/-- The run of `parallelSort` returns; it dispatches the chunk-sort wave and
then waves of well-formed merge tasks, and it keeps every property of the
vector that each well-formed task keeps. -/
theorem parallelSort_spec (data : List Int) (w : Nat) (hw : 1 ≤ w) (Inv : List Int → Prop)
    (hstep : ∀ (r : Runnable) (d : List Int), r.InBounds data.length → Inv d → Inv (r.run d))
    (hinit : Inv data) :
    ∃ s more, parallelSort data w = some s ∧ Inv s.data ∧
      s.waves = (phase1Tasks data.length w).map Runnable.sortTask :: more ∧
      ∀ wave ∈ more, ∀ r ∈ wave,
        r.InBounds data.length ∧ ∃ t, r = Runnable.mergeTask t := by
  have h1 : ∀ r ∈ (phase1Tasks data.length w).map Runnable.sortTask,
      r.InBounds data.length := by
    intro r hr
    obtain ⟨t, ht, rfl⟩ := List.mem_map.mp hr
    exact phase1Tasks_inBounds _ _ t ht
  obtain ⟨s, more, heq, hinv, hwaves, hmore⟩ :=
    mergeLoop_spec data.length w Inv hstep w w 0
      ⟨runWave ((phase1Tasks data.length w).map Runnable.sortTask) data,
        [(phase1Tasks data.length w).map Runnable.sortTask]⟩
      (le_refl _) (le_refl _) (runWave_preserves _ Inv hstep _ _ h1 hinit)
  refine ⟨s, more, ?_, hinv, by simpa using hwaves, hmore⟩
  unfold parallelSort
  rw [if_neg (by omega)]
  exact heq


theorem phase1Tasks_ordered (n w i j : Nat) (t t' : SortTask) (hij : i < j)
    (hi : (phase1Tasks n w)[i]? = some t) (hj : (phase1Tasks n w)[j]? = some t') :
    t.endIndex ≤ t'.startIndex := by
  have hjw : j < w := by
    have := (List.getElem?_eq_some_iff.mp hj).1
    rwa [phase1Tasks_length] at this
  rw [phase1Tasks_getElem? n w i (by omega)] at hi
  rw [phase1Tasks_getElem? n w j hjw] at hj
  cases hi
  cases hj
  dsimp only
  rw [if_neg (by omega)]
  exact Nat.mul_le_mul_right _ (by omega)

theorem last_chunk_size (n w : Nat) (hw : 1 ≤ w) :
    n - (w - 1) * (n / w) = n / w + n % w := by
  obtain ⟨v, rfl⟩ : ∃ v, w = v + 1 := ⟨w - 1, by omega⟩
  have h := Nat.div_add_mod n (v + 1)
  rw [Nat.add_sub_cancel]
  generalize n / (v + 1) = q at h ⊢
  generalize n % (v + 1) = r at h ⊢
  have h2 : (v + 1) * q = v * q + q := by ring
  omega

theorem phase1Tasks_cover (n w k : Nat) (hw : 1 ≤ w) (hk : k < n) :
    ∃ i : Nat, ∃ t : SortTask, (phase1Tasks n w)[i]? = some t ∧ t.startIndex ≤ k ∧ k < t.endIndex := by
  by_cases hlt : k < (w - 1) * (n / w)
  · have hc : 0 < n / w := by
      rcases Nat.eq_zero_or_pos (n / w) with h0 | h0
      · rw [h0] at hlt; simp at hlt
      · exact h0
    have hi : k / (n / w) < w - 1 := (Nat.div_lt_iff_lt_mul hc).mpr hlt
    refine ⟨k / (n / w), _, phase1Tasks_getElem? n w (k / (n / w)) (by omega), ?_, ?_⟩
    · exact Nat.div_mul_le_self k (n / w)
    · dsimp only
      rw [if_neg (by omega)]
      rw [Nat.mul_comm]
      exact Nat.lt_mul_div_succ k hc
  · refine ⟨w - 1, _, phase1Tasks_getElem? n w (w - 1) (by omega), ?_, ?_⟩
    · dsimp only; omega
    · dsimp only
      rw [if_pos rfl]
      exact hk


/-! ## The claims -/

/-- C1, evaluated on the code: with three worker threads the vector `[1, 2, 0]`
is split into three one-element chunks, the only merge wave merges `[0,1)` with
`[1,2)`, and the loop then stops with the third chunk never merged: the vector is
left as `[1, 2, 0]`, which is not non-descending. -/
theorem parallelSort_three_threads_unsorted :
    parallelSort [1, 2, 0] 3 =
        some ⟨[1, 2, 0],
          [[.sortTask ⟨0, 1, 0⟩, .sortTask ⟨1, 2, 1⟩, .sortTask ⟨2, 3, 2⟩],
           [.mergeTask ⟨0, 1, 1, 2, 0⟩]]⟩ ∧
      ¬ NonDescending [1, 2, 0] := by
  refine ⟨by decide, ?_⟩
  intro h
  have := h 2 (by decide) (by decide)
  revert this
  decide

/-- Over unbounded integers: for every vector and every worker count `w ≥ 1`,
`parallelSort` returns and leaves a permutation of the input: same length, and
every value occurs as often as before. -/
theorem parallelSort_perm (data : List Int) (w : Nat) (hw : 1 ≤ w) :
    ∃ s, parallelSort data w = some s ∧ s.data.Perm data ∧
      s.data.length = data.length ∧ ∀ v, s.data.count v = data.count v := by
  obtain ⟨s, _, heq, hperm, _, _⟩ :=
    parallelSort_spec data w hw (fun d => d.Perm data)
      (fun r d hb hd => (runnable_run_perm r d (hd.length_eq ▸ hb)).trans hd) (List.Perm.refl _)
  exact ⟨s, heq, hperm, hperm.length_eq, fun v => hperm.count_eq v⟩

theorem parallelSort_perm_witness :
    1 ≤ 3 ∧ ∃ s, parallelSort [1, 2, 0] 3 = some s ∧ s.data.Perm [1, 2, 0] ∧
      s.data.length = ([1, 2, 0] : List Int).length ∧
      ∀ v, s.data.count v = ([1, 2, 0] : List Int).count v :=
  ⟨by decide, parallelSort_perm [1, 2, 0] 3 (by decide)⟩

/-- C3: for every length `n` and count `w ≥ 1`, phase 1 creates `w` chunk-sort
tasks; task `i` has the range `[i*(n/w), (i+1)*(n/w))` for `i < w-1` and the
last one `[(w-1)*(n/w), n)`; the first range starts at `0`, every range ends
where the next one starts, the last ends at `n`, every start is at most its end;
every range but the last has `n/w` elements and the last has `n/w + n % w`; and
every index below `n` lies in exactly one range. -/
theorem phase1Tasks_partition (n w : Nat) (hw : 1 ≤ w) :
    (phase1Tasks n w).length = w ∧
    (∀ i : Nat, i < w → ∃ t : SortTask, (phase1Tasks n w)[i]? = some t ∧
        t.startIndex = i * (n / w) ∧
        t.endIndex = (if i < w - 1 then (i + 1) * (n / w) else n) ∧
        t.startIndex ≤ t.endIndex ∧
        (i = 0 → t.startIndex = 0) ∧
        (i < w - 1 → t.endIndex - t.startIndex = n / w) ∧
        (i = w - 1 → t.endIndex = n ∧ t.endIndex - t.startIndex = n / w + n % w)) ∧
    (∀ (i : Nat) (t t' : SortTask), (phase1Tasks n w)[i]? = some t →
        (phase1Tasks n w)[i + 1]? = some t' → t.endIndex = t'.startIndex) ∧
    (∀ k : Nat, k < n → ∃! i : Nat, ∃ t : SortTask,
        (phase1Tasks n w)[i]? = some t ∧ t.startIndex ≤ k ∧ k < t.endIndex) := by
  refine ⟨phase1Tasks_length n w, ?_, ?_, ?_⟩
  · intro i hi
    have hb := phase1Tasks_inBounds n w _
      (List.getElem?_mem (phase1Tasks_getElem? n w i hi))
    refine ⟨_, phase1Tasks_getElem? n w i hi, rfl, ?_, hb.1, ?_, ?_, ?_⟩
    · dsimp only
      by_cases h : i = w - 1
      · rw [if_pos h, if_neg (by omega)]
      · rw [if_neg h, if_pos (by omega)]
    · rintro rfl
      dsimp only
      omega
    · intro h
      dsimp only
      rw [if_neg (by omega), Nat.add_mul, Nat.one_mul, Nat.add_sub_cancel_left]
    · intro h
      dsimp only
      rw [if_pos h, h]
      exact ⟨rfl, last_chunk_size n w hw⟩
  · intro i t t' hi hj
    have hjw : i + 1 < w := by
      have := (List.getElem?_eq_some_iff.mp hj).1
      rwa [phase1Tasks_length] at this
    rw [phase1Tasks_getElem? n w i (by omega)] at hi
    rw [phase1Tasks_getElem? n w (i + 1) hjw] at hj
    cases hi
    cases hj
    dsimp only
    rw [if_neg (by omega)]
  · intro k hk
    obtain ⟨i, t, hi, h1, h2⟩ := phase1Tasks_cover n w k hw hk
    refine ⟨i, ⟨t, hi, h1, h2⟩, ?_⟩
    rintro j ⟨t', hj, h1', h2'⟩
    rcases Nat.lt_trichotomy j i with hlt | heq | hgt
    · have := phase1Tasks_ordered n w j i t' t hlt hj hi
      omega
    · exact heq
    · have := phase1Tasks_ordered n w i j t t' hgt hi hj
      omega

theorem phase1Tasks_partition_witness :
    1 ≤ 3 ∧
    ((phase1Tasks 10 3).length = 3 ∧
    (∀ i : Nat, i < 3 → ∃ t : SortTask, (phase1Tasks 10 3)[i]? = some t ∧
        t.startIndex = i * (10 / 3) ∧
        t.endIndex = (if i < 3 - 1 then (i + 1) * (10 / 3) else 10) ∧
        t.startIndex ≤ t.endIndex ∧
        (i = 0 → t.startIndex = 0) ∧
        (i < 3 - 1 → t.endIndex - t.startIndex = 10 / 3) ∧
        (i = 3 - 1 → t.endIndex = 10 ∧ t.endIndex - t.startIndex = 10 / 3 + 10 % 3)) ∧
    (∀ (i : Nat) (t t' : SortTask), (phase1Tasks 10 3)[i]? = some t →
        (phase1Tasks 10 3)[i + 1]? = some t' → t.endIndex = t'.startIndex) ∧
    (∀ k : Nat, k < 10 → ∃! i : Nat, ∃ t : SortTask,
        (phase1Tasks 10 3)[i]? = some t ∧ t.startIndex ≤ k ∧ k < t.endIndex)) :=
  ⟨by decide, phase1Tasks_partition 10 3 (by decide)⟩

/-- C4: for well-formed adjacent ranges `start1 ≤ end1 = start2 ≤ end2 ≤ size`
that are each non-descending, after `MergeTask::run` the range `[start1, end2)`
is non-descending and holds exactly the elements of the two input ranges, every
value as often as in both together. -/
theorem mergeTask_run_merges (data : List Int) (t : MergeTask)
    (h1 : t.start1 ≤ t.end1) (h2 : t.end1 = t.start2) (h3 : t.start2 ≤ t.end2)
    (h4 : t.end2 ≤ data.length)
    (hs1 : NonDescending (slice data t.start1 t.end1))
    (hs2 : NonDescending (slice data t.start2 t.end2)) :
    NonDescending (slice (t.run data) t.start1 t.end2) ∧
    (slice (t.run data) t.start1 t.end2).Perm
      (slice data t.start1 t.end1 ++ slice data t.start2 t.end2) ∧
    ∀ v, (slice (t.run data) t.start1 t.end2).count v =
      (slice data t.start1 t.end1).count v + (slice data t.start2 t.end2).count v := by
  have hb : t.InBounds data.length := ⟨h1, h2, h3, h4⟩
  have hrun : slice (t.run data) t.start1 t.end2 = t.temp data :=
    slice_overwrite data _ t.start1 t.end2 (mergeTask_start1_le_end2 t _ hb) h4 (mergeTask_temp_length t data hb)
  rw [hrun]
  have hperm : (t.temp data).Perm (slice data t.start1 t.end1 ++ slice data t.start2 t.end2) :=
    stdMerge_perm _ _
  refine ⟨?_, hperm, ?_⟩
  · rw [nonDescending_iff_sorted] at hs1 hs2 ⊢
    exact stdMerge_sorted _ _ hs1 hs2
  · intro v
    rw [hperm.count_eq v, List.count_append]

theorem mergeTask_run_merges_witness :
    (1 ≤ 3 ∧ 3 = 3 ∧ 3 ≤ 5 ∧ 5 ≤ ([9, 2, 7, 2, 4, 0] : List Int).length ∧
      NonDescending (slice [9, 2, 7, 2, 4, 0] 1 3) ∧
      NonDescending (slice [9, 2, 7, 2, 4, 0] 3 5)) ∧
    (NonDescending (slice ((MergeTask.mk 1 3 3 5 0).run [9, 2, 7, 2, 4, 0]) 1 5) ∧
    (slice ((MergeTask.mk 1 3 3 5 0).run [9, 2, 7, 2, 4, 0]) 1 5).Perm
      (slice [9, 2, 7, 2, 4, 0] 1 3 ++ slice [9, 2, 7, 2, 4, 0] 3 5) ∧
    ∀ v, (slice ((MergeTask.mk 1 3 3 5 0).run [9, 2, 7, 2, 4, 0]) 1 5).count v =
      (slice [9, 2, 7, 2, 4, 0] 1 3).count v + (slice [9, 2, 7, 2, 4, 0] 3 5).count v) :=
  have hs1 : NonDescending (slice [9, 2, 7, 2, 4, 0] 1 3) :=
    (nonDescending_iff_sorted _).mpr (by decide)
  have hs2 : NonDescending (slice [9, 2, 7, 2, 4, 0] 3 5) :=
    (nonDescending_iff_sorted _).mpr (by decide)
  ⟨⟨by decide, rfl, by decide, by decide, hs1, hs2⟩,
    mergeTask_run_merges [9, 2, 7, 2, 4, 0] (MergeTask.mk 1 3 3 5 0)
      (by decide) rfl (by decide) (by decide) hs1 hs2⟩

/-- Over unbounded integers: for every non-descending vector and every worker
count `w ≥ 1`, `parallelSort` returns and leaves the vector identical to the
input. -/
theorem parallelSort_of_nonDescending (data : List Int) (w : Nat) (hw : 1 ≤ w)
    (hs : NonDescending data) :
    ∃ s, parallelSort data w = some s ∧ s.data = data := by
  rw [nonDescending_iff_sorted] at hs
  obtain ⟨s, _, heq, hdata, _, _⟩ :=
    parallelSort_spec data w hw (fun d => d = data)
      (fun r d hb hd => by
        subst hd
        exact runnable_run_of_sorted r d hb hs) rfl
  exact ⟨s, heq, hdata⟩

theorem parallelSort_of_nonDescending_witness :
    (1 ≤ 4 ∧ NonDescending (List.replicate 1000 7)) ∧
      ∃ s, parallelSort (List.replicate 1000 7) 4 = some s ∧
        s.data = List.replicate 1000 7 :=
  have hs : NonDescending (List.replicate 1000 7) :=
    (nonDescending_iff_sorted _).mpr (List.pairwise_replicate.mpr (Or.inr (le_refl _)))
  ⟨⟨by decide, hs⟩, parallelSort_of_nonDescending (List.replicate 1000 7) 4 (by decide) hs⟩


/-- C6, evaluated on the code: with three worker threads the loop
`while (numChunks > 1)` makes one iteration only (the first wave counts one new
chunk for the three it started with), whereas the ceiling of `log2 3` is `2`. -/
theorem parallelSort_three_threads_one_wave :
    (∃ s, parallelSort [1, 2, 0] 3 = some s ∧ s.mergeWaves = 1) ∧ Nat.clog 2 3 = 2 := by
  refine ⟨⟨_, rfl, by decide⟩, ?_⟩
  rw [Nat.clog_of_two_le (by decide) (by decide)]
  have h : (3 + 2 - 1) / 2 = 2 := by decide
  rw [h, Nat.clog_eq_one (le_refl 2) (le_refl 2)]

/-- C7, evaluated on the code: a merge wave that starts with `3` chunks starts
one merge task and leaves `newNumChunks = 1` for the next wave, the unpaired
third chunk not being counted, whereas half of `3` rounded up is `2`. -/
theorem mergeFor_three_chunks :
    mergeFor 3 3 3 3 0 0 0 = some ([MergeTask.mk 0 1 1 2 0], 1, 1) ∧ (3 + 1) / 2 = 2 := by
  decide

/-- C8: for every well-formed range `startIndex ≤ endIndex ≤ size`, after
`SortTask::run` the vector has its length, the elements at
`[startIndex, endIndex)` are non-descending and a permutation of the elements
that were there, and every element outside the range is unchanged. -/
theorem sortTask_run_sorts (data : List Int) (t : SortTask)
    (h1 : t.startIndex ≤ t.endIndex) (h2 : t.endIndex ≤ data.length) :
    (t.run data).length = data.length ∧
    NonDescending (slice (t.run data) t.startIndex t.endIndex) ∧
    (slice (t.run data) t.startIndex t.endIndex).Perm (slice data t.startIndex t.endIndex) ∧
    ∀ i : Nat, i < t.startIndex ∨ t.endIndex ≤ i → (t.run data)[i]? = data[i]? := by
  have hlen : (stdSort (slice data t.startIndex t.endIndex)).length =
      t.endIndex - t.startIndex := by
    rw [(stdSort_perm _).length_eq, slice_length data _ _ h2]
  have hrun : slice (t.run data) t.startIndex t.endIndex =
      stdSort (slice data t.startIndex t.endIndex) :=
    slice_overwrite data _ t.startIndex t.endIndex h1 h2 hlen
  refine ⟨sortTask_run_length t data ⟨h1, h2⟩, ?_, ?_, ?_⟩
  · rw [hrun, nonDescending_iff_sorted]
    exact stdSort_sorted _
  · rw [hrun]
    exact stdSort_perm _
  · rintro i (hi | hi)
    · exact overwrite_getElem?_lt data _ t.startIndex i (by omega) hi
    · exact overwrite_getElem?_ge data _ t.startIndex t.endIndex i h1 h2 hlen hi

theorem sortTask_run_sorts_witness :
    (1 ≤ 4 ∧ 4 ≤ ([9, 3, 1, 2, 0] : List Int).length) ∧
    (((SortTask.mk 1 4 0).run [9, 3, 1, 2, 0]).length = ([9, 3, 1, 2, 0] : List Int).length ∧
    NonDescending (slice ((SortTask.mk 1 4 0).run [9, 3, 1, 2, 0]) 1 4) ∧
    (slice ((SortTask.mk 1 4 0).run [9, 3, 1, 2, 0]) 1 4).Perm (slice [9, 3, 1, 2, 0] 1 4) ∧
    ∀ i : Nat, i < 1 ∨ 4 ≤ i →
      ((SortTask.mk 1 4 0).run [9, 3, 1, 2, 0])[i]? = ([9, 3, 1, 2, 0] : List Int)[i]?) :=
  ⟨⟨by decide, by decide⟩,
    sortTask_run_sorts [9, 3, 1, 2, 0] (SortTask.mk 1 4 0) (by decide) (by decide)⟩

/-- C9: for well-formed adjacent ranges `start1 ≤ end1 = start2 ≤ end2 ≤ size`,
sorted or not, `MergeTask::run` fills `temp` with exactly `end2 - start1`
elements, writes them at `[start1, end2)`, leaves the length of the vector
unchanged and leaves every element at an index `< start1` or `≥ end2` unchanged. -/
theorem mergeTask_run_frame (data : List Int) (t : MergeTask)
    (h1 : t.start1 ≤ t.end1) (h2 : t.end1 = t.start2) (h3 : t.start2 ≤ t.end2)
    (h4 : t.end2 ≤ data.length) :
    (t.temp data).length = t.end2 - t.start1 ∧
    t.run data = data.take t.start1 ++ t.temp data ++ data.drop t.end2 ∧
    (t.run data).length = data.length ∧
    ∀ i : Nat, i < t.start1 ∨ t.end2 ≤ i → (t.run data)[i]? = data[i]? := by
  have hb : t.InBounds data.length := ⟨h1, h2, h3, h4⟩
  have h12 := mergeTask_start1_le_end2 t _ hb
  have hlen := mergeTask_temp_length t data hb
  refine ⟨hlen, overwrite_eq data _ t.start1 t.end2 h12 hlen, mergeTask_run_length t data hb, ?_⟩
  rintro i (hi | hi)
  · exact overwrite_getElem?_lt data _ t.start1 i (by omega) hi
  · exact overwrite_getElem?_ge data _ t.start1 t.end2 i h12 h4 hlen hi

theorem mergeTask_run_frame_witness :
    (1 ≤ 3 ∧ 3 = 3 ∧ 3 ≤ 5 ∧ 5 ≤ ([9, 7, 2, 4, 1, 0] : List Int).length) ∧
    (((MergeTask.mk 1 3 3 5 0).temp [9, 7, 2, 4, 1, 0]).length = 5 - 1 ∧
    (MergeTask.mk 1 3 3 5 0).run [9, 7, 2, 4, 1, 0] =
      ([9, 7, 2, 4, 1, 0] : List Int).take 1 ++ (MergeTask.mk 1 3 3 5 0).temp [9, 7, 2, 4, 1, 0]
        ++ ([9, 7, 2, 4, 1, 0] : List Int).drop 5 ∧
    ((MergeTask.mk 1 3 3 5 0).run [9, 7, 2, 4, 1, 0]).length =
      ([9, 7, 2, 4, 1, 0] : List Int).length ∧
    ∀ i : Nat, i < 1 ∨ 5 ≤ i →
      ((MergeTask.mk 1 3 3 5 0).run [9, 7, 2, 4, 1, 0])[i]? =
        ([9, 7, 2, 4, 1, 0] : List Int)[i]?) :=
  ⟨⟨by decide, rfl, by decide, by decide⟩,
    mergeTask_run_frame [9, 7, 2, 4, 1, 0] (MergeTask.mk 1 3 3 5 0)
      (by decide) rfl (by decide) (by decide)⟩

/-- C10 as stated fails on the code: on the empty vector with four worker
threads `parallelSort` dispatches four chunk-sort tasks and three merge tasks,
so it is not the case that no task is dispatched. -/
theorem parallelSort_empty_dispatches :
    parallelSort [] 4 =
        some ⟨[],
          [[.sortTask ⟨0, 0, 0⟩, .sortTask ⟨0, 0, 1⟩, .sortTask ⟨0, 0, 2⟩, .sortTask ⟨0, 0, 3⟩],
           [.mergeTask ⟨0, 0, 0, 0, 0⟩, .mergeTask ⟨0, 0, 0, 0, 1⟩],
           [.mergeTask ⟨0, 0, 0, 0, 2⟩]]⟩ ∧
      ¬ ∃ s, parallelSort [] 4 = some s ∧ s.data = [] ∧ s.dispatched = [] := by
  decide

/-- C10, amended: on the empty vector and for every worker count `w ≥ 1`,
`parallelSort` returns and leaves the vector empty; the first wave it
dispatches consists of `w` chunk-sort tasks, numbered `0` to `w-1`, each on the
empty range `[0, 0)`, and every task of a later wave is a merge task on the
empty ranges `[0, 0)` and `[0, 0)`. -/
theorem parallelSort_empty (w : Nat) (hw : 1 ≤ w) :
    ∃ s more, parallelSort [] w = some s ∧ s.data = [] ∧
      s.waves = (List.range w).map (fun i => Runnable.sortTask (SortTask.mk 0 0 i)) :: more ∧
      ∀ wave ∈ more, ∀ r ∈ wave, ∃ id, r = Runnable.mergeTask (MergeTask.mk 0 0 0 0 id) := by
  obtain ⟨s, more, heq, hperm, hwaves, hmore⟩ :=
    parallelSort_spec [] w hw (fun d => d.Perm [])
      (fun r d hb hd => (runnable_run_perm r d (hd.length_eq ▸ hb)).trans hd) (List.Perm.refl _)
  refine ⟨s, more, heq, List.perm_nil.mp hperm, ?_, ?_⟩
  · rw [hwaves]
    simp [phase1Tasks]
  · intro wave hwv r hr
    obtain ⟨hb, ⟨s1, e1, s2, e2, id⟩, rfl⟩ := hmore wave hwv r hr
    obtain ⟨b1, b2, b3, b4⟩ := hb
    dsimp only [List.length_nil] at b1 b2 b3 b4
    refine ⟨id, ?_⟩
    have hs1 : s1 = 0 := by omega
    have he1 : e1 = 0 := by omega
    have hs2 : s2 = 0 := by omega
    have he2 : e2 = 0 := by omega
    rw [hs1, he1, hs2, he2]

theorem parallelSort_empty_witness :
    1 ≤ 2 ∧ ∃ s more, parallelSort [] 2 = some s ∧ s.data = [] ∧
      s.waves = (List.range 2).map (fun i => Runnable.sortTask (SortTask.mk 0 0 i)) :: more ∧
      ∀ wave ∈ more, ∀ r ∈ wave, ∃ id, r = Runnable.mergeTask (MergeTask.mk 0 0 0 0 id) :=
  ⟨by decide, parallelSort_empty 2 (by decide)⟩

/-! ## The shape of the merge waves -/

/-- The `for` loop of a merge wave in closed form: from `i` on it starts one
task per pair `(i + 2j, i + 2j + 1)` below `numChunks`, numbered consecutively,
and counts one new chunk for each. -/
theorem mergeFor_closed (n w numChunks : Nat) :
    ∀ (fuel i mergeTaskId newNumChunks : Nat), numChunks ≤ i + 2 * fuel →
      ∃ tasks : List MergeTask,
        mergeFor n w numChunks fuel i mergeTaskId newNumChunks =
          some (tasks, mergeTaskId + (numChunks - i) / 2,
            newNumChunks + (numChunks - i) / 2) ∧
        tasks.length = (numChunks - i) / 2 ∧
        ∀ j : Nat, j < (numChunks - i) / 2 →
          tasks[j]? = some (MergeTask.mk ((i + 2 * j) * n / w) ((i + 2 * j + 1) * n / w)
            ((i + 2 * j + 1) * n / w)
            (if i + 2 * j + 2 = numChunks then n else (i + 2 * j + 2) * n / w)
            (mergeTaskId + j)) := by
  intro fuel
  induction fuel with
  | zero =>
    intro i id new h
    have h0 : (numChunks - i) / 2 = 0 := by omega
    refine ⟨[], ?_, by simp [h0], by intro j hj; omega⟩
    simp only [mergeFor, h0, Nat.add_zero]
    rw [if_neg (by omega)]
  | succ fuel ih =>
    intro i id new h
    by_cases h1 : i < numChunks
    · by_cases h2 : i + 1 < numChunks
      · obtain ⟨tasks, heq, hlen, hget⟩ := ih (i + 2) (id + 1) (new + 1) (by omega)
        have hc : (numChunks - i) / 2 = (numChunks - (i + 2)) / 2 + 1 := by omega
        refine ⟨MergeTask.mk (i * n / w) ((i + 1) * n / w) ((i + 1) * n / w)
          (if i + 2 = numChunks then n else (i + 2) * n / w) id :: tasks, ?_, ?_, ?_⟩
        · simp only [mergeFor, if_pos h1, if_pos h2, heq, hc]
          simp only [Nat.add_assoc, Nat.add_comm 1]
        · rw [List.length_cons, hlen, hc]
        · intro j hj
          cases j with
          | zero => simp
          | succ j =>
            rw [List.getElem?_cons_succ, hget j (by omega)]
            have e1 : i + 2 + 2 * j = i + 2 * (j + 1) := by ring
            have e2 : id + 1 + j = id + (j + 1) := by ring
            rw [e1, e2]
      · have h0 : (numChunks - (i + 2)) / 2 = 0 := by omega
        have h0' : (numChunks - i) / 2 = 0 := by omega
        obtain ⟨tasks, heq, hlen, _⟩ := ih (i + 2) id new (by omega)
        refine ⟨tasks, ?_, by rw [hlen, h0, h0'], by intro j hj; omega⟩
        simp only [mergeFor, if_pos h1, if_neg h2, heq, h0, h0']
    · have h0 : (numChunks - i) / 2 = 0 := by omega
      refine ⟨[], ?_, by simp [h0], by intro j hj; omega⟩
      simp only [mergeFor, if_neg h1, h0, Nat.add_zero]

/-- A whole merge wave that starts with `p` chunks: `p / 2` tasks, task `j` on
the pair `(2j, 2j + 1)`, and `p / 2` chunks counted for the next wave. -/
theorem mergeFor_wave (n w p mergeTaskId : Nat) :
    ∃ tasks : List MergeTask,
      mergeFor n w p p 0 mergeTaskId 0 = some (tasks, mergeTaskId + p / 2, p / 2) ∧
      tasks.length = p / 2 ∧
      ∀ j : Nat, j < p / 2 →
        tasks[j]? = some (MergeTask.mk (2 * j * n / w) ((2 * j + 1) * n / w)
          ((2 * j + 1) * n / w) (if 2 * j + 2 = p then n else (2 * j + 2) * n / w)
          (mergeTaskId + j)) := by
  obtain ⟨tasks, heq, hlen, hget⟩ := mergeFor_closed n w p p 0 mergeTaskId 0 (by omega)
  simp only [Nat.sub_zero, Nat.zero_add] at heq hlen hget
  exact ⟨tasks, heq, hlen, hget⟩

theorem half_div_pow (p k : Nat) : p / 2 / 2 ^ k = p / 2 ^ (k + 1) := by
  rw [Nat.div_div_eq_div_mul, Nat.pow_succ, Nat.mul_comm]

/-- The `while` loop in closed form: started with `p` chunks and fuel for them,
it exits after `Nat.log 2 p` waves, and wave `k` is the `for` loop run on
`p / 2 ^ k` chunks, which leaves `p / 2 ^ (k + 1)` chunks. -/
theorem mergeLoop_closed (n w : Nat) :
    ∀ (fuel p mergeTaskId : Nat) (s : SorterState), p ≤ fuel →
      ∃ (s' : SorterState) (more : List (List Runnable)),
        mergeLoop n w fuel p mergeTaskId s = some s' ∧
        s'.waves = s.waves ++ more ∧ more.length = Nat.log 2 p ∧
        ∀ k : Nat, k < Nat.log 2 p →
          ∃ (tasks : List MergeTask) (id id' : Nat),
            more[k]? = some (tasks.map Runnable.mergeTask) ∧
            mergeFor n w (p / 2 ^ k) (p / 2 ^ k) 0 id 0 =
              some (tasks, id', p / 2 ^ (k + 1)) := by
  intro fuel
  induction fuel with
  | zero =>
    intro p id s hp
    have h0 : Nat.log 2 p = 0 := Nat.log_of_lt (by omega)
    refine ⟨s, [], ?_, by simp, by simp [h0], by intro k hk; omega⟩
    simp only [mergeLoop]
    rw [if_neg (by omega)]
  | succ fuel ih =>
    intro p id s hp
    by_cases h1 : p > 1
    · obtain ⟨tasks, heq, _, _⟩ := mergeFor_wave n w p id
      obtain ⟨s', more, heq', hwaves, hlen, hk⟩ :=
        ih (p / 2) (id + p / 2)
          ⟨runWave (tasks.map Runnable.mergeTask) s.data,
            s.waves ++ [tasks.map Runnable.mergeTask]⟩ (by omega)
      have hlog : Nat.log 2 p = Nat.log 2 (p / 2) + 1 :=
        Nat.log_of_one_lt_of_le (by decide) (by omega)
      refine ⟨s', tasks.map Runnable.mergeTask :: more, ?_, ?_, ?_, ?_⟩
      · simp only [mergeLoop, if_pos h1, heq]
        exact heq'
      · rw [hwaves]; simp
      · rw [List.length_cons, hlen, hlog]
      · intro k hlt
        cases k with
        | zero =>
          refine ⟨tasks, id, id + p / 2, by simp, ?_⟩
          simpa using heq
        | succ k =>
          obtain ⟨tasks', id1, id2, hget, hfor⟩ := hk k (by omega)
          refine ⟨tasks', id1, id2, by simpa using hget, ?_⟩
          rw [half_div_pow p k, half_div_pow p (k + 1)] at hfor
          exact hfor
    · have h0 : Nat.log 2 p = 0 := Nat.log_of_lt (by omega)
      refine ⟨s, [], ?_, by simp, by simp [h0], by intro k hk; omega⟩
      simp only [mergeLoop, if_neg h1]

/-- The run of `parallelSort` in closed form: the chunk-sort wave, then
`Nat.log 2 w` merge waves, wave `k` being the `for` loop run on `w / 2 ^ k`
chunks. -/
theorem parallelSort_closed (data : List Int) (w : Nat) (hw : 1 ≤ w) :
    ∃ (s : SorterState) (more : List (List Runnable)),
      parallelSort data w = some s ∧
      s.waves = (phase1Tasks data.length w).map Runnable.sortTask :: more ∧
      more.length = Nat.log 2 w ∧
      ∀ k : Nat, k < Nat.log 2 w →
        ∃ (tasks : List MergeTask) (id id' : Nat),
          more[k]? = some (tasks.map Runnable.mergeTask) ∧
          mergeFor data.length w (w / 2 ^ k) (w / 2 ^ k) 0 id 0 =
            some (tasks, id', w / 2 ^ (k + 1)) := by
  obtain ⟨s, more, heq, hwaves, hlen, hk⟩ :=
    mergeLoop_closed data.length w w w 0
      ⟨runWave ((phase1Tasks data.length w).map Runnable.sortTask) data,
        [(phase1Tasks data.length w).map Runnable.sortTask]⟩ (le_refl _)
  refine ⟨s, more, ?_, by simpa using hwaves, hlen, hk⟩
  unfold parallelSort
  rw [if_neg (by omega)]
  exact heq

/-- Two tasks of one merge wave, in the order they were started, write ranges
that do not meet: the earlier one ends where the later one starts, or before. -/
theorem mergeFor_wave_ordered (n w p id id' c : Nat) (tasks : List MergeTask)
    (h : mergeFor n w p p 0 id 0 = some (tasks, id', c)) (i j : Nat) (a b : MergeTask)
    (hij : i < j) (hi : tasks[i]? = some a) (hj : tasks[j]? = some b) :
    a.end2 ≤ b.start1 := by
  obtain ⟨tasks', heq, hlen, hget⟩ := mergeFor_wave n w p id
  rw [heq] at h
  obtain rfl : tasks' = tasks := by
    injection h with h
    exact (Prod.mk.inj h).1
  have hjl : j < p / 2 := by
    have := (List.getElem?_eq_some_iff.mp hj).1
    omega
  rw [hget i (by omega)] at hi
  rw [hget j hjl] at hj
  cases hi
  cases hj
  dsimp only
  rw [if_neg (by omega)]
  exact scaled_bound_mono n w _ _ (by omega)

/-- C11 as stated fails on the code: for `N = 7` and `W = 4` the sizes of the
four phase 1 ranges are not `[1, 2, 2, 2]`. -/
theorem phase1Tasks_seven_four_sizes_ne :
    (phase1Tasks 7 4).map SortTask.size ≠ [1, 2, 2, 2] := by
  decide

/-- C11, amended: for `N = 7` and `W = 4` phase 1 hands out the ranges `[0,1)`,
`[1,2)`, `[2,3)` and `[3,7)`, of sizes `[1, 1, 1, 4]` in order: `chunkSize = 1`
and the last range takes the remainder. -/
theorem phase1Tasks_seven_four_sizes :
    phase1Tasks 7 4 = [⟨0, 1, 0⟩, ⟨1, 2, 1⟩, ⟨2, 3, 2⟩, ⟨3, 7, 3⟩] ∧
      (phase1Tasks 7 4).map SortTask.size = [1, 1, 1, 4] := by
  decide

/-- C13, evaluated on the code: for `N = 7` and `W = 4` phase 1 sorts `[0,1)`,
`[1,2)`, `[2,3)`, `[3,7)`, but the first merge wave, which computes `i*N/W`
where phase 1 computes `i*(N/W)`, merges `[0,1)` with `[1,3)` and `[3,5)` with
`[5,7)`: its ranges are not the phase 1 ranges. -/
theorem first_merge_wave_seven_four :
    phase1Tasks 7 4 = [⟨0, 1, 0⟩, ⟨1, 2, 1⟩, ⟨2, 3, 2⟩, ⟨3, 7, 3⟩] ∧
      mergeFor 7 4 4 4 0 0 0 = some ([⟨0, 1, 1, 3, 0⟩, ⟨3, 5, 5, 7, 1⟩], 2, 2) := by
  decide

/-- C14, evaluated on the code: for `N = 8` and `W = 4` the first merge wave
writes `[0,4)` and `[4,8)`, but the only task of the second wave merges `[0,2)`
with `[2,8)`: the bounds are again `i*N/W` for the first wave's chunk width and
not the ranges the first wave wrote. -/
theorem second_merge_wave_eight_four :
    ∃ s, parallelSort [8, 7, 6, 5, 4, 3, 2, 1] 4 = some s ∧
      s.waves =
        [[.sortTask ⟨0, 2, 0⟩, .sortTask ⟨2, 4, 1⟩, .sortTask ⟨4, 6, 2⟩, .sortTask ⟨6, 8, 3⟩],
         [.mergeTask ⟨0, 2, 2, 4, 0⟩, .mergeTask ⟨4, 6, 6, 8, 1⟩],
         [.mergeTask ⟨0, 2, 2, 8, 2⟩]] := by
  exact ⟨_, rfl, by decide⟩

/-- C15, evaluated on the code: on `[4, 3, 2, 1]` with four worker threads the
first two waves leave `[3, 4, 1, 2]`, and the task of the third wave then merges
`[0,1)` with `[1,4)`, whose elements `4, 1, 2` are not non-descending. -/
theorem merge_input_unsorted_four_four :
    (∃ s, parallelSort [4, 3, 2, 1] 4 = some s ∧
      s.waves =
        [[.sortTask ⟨0, 1, 0⟩, .sortTask ⟨1, 2, 1⟩, .sortTask ⟨2, 3, 2⟩, .sortTask ⟨3, 4, 3⟩],
         [.mergeTask ⟨0, 1, 1, 2, 0⟩, .mergeTask ⟨2, 3, 3, 4, 1⟩],
         [.mergeTask ⟨0, 1, 1, 4, 2⟩]]) ∧
      runWave [.mergeTask ⟨0, 1, 1, 2, 0⟩, .mergeTask ⟨2, 3, 3, 4, 1⟩]
        (runWave [.sortTask ⟨0, 1, 0⟩, .sortTask ⟨1, 2, 1⟩, .sortTask ⟨2, 3, 2⟩,
          .sortTask ⟨3, 4, 3⟩] [4, 3, 2, 1]) = [3, 4, 1, 2] ∧
      slice [3, 4, 1, 2] 1 4 = [4, 1, 2] ∧
      ¬ NonDescending (slice [3, 4, 1, 2] 1 4) := by
  refine ⟨⟨_, rfl, by decide⟩, by decide, by decide, ?_⟩
  intro h
  have := h 1 (by decide) (by decide)
  revert this
  decide

/-- Over unbounded integers: for every vector and every worker count `w ≥ 1`,
`parallelSort` returns, and in each wave it dispatched (the chunk-sort wave and
every merge wave) two distinct tasks write disjoint index ranges: the task
started earlier ends at or before the start of the later one, so no index is
written by both. -/
theorem parallelSort_wave_disjoint (data : List Int) (w : Nat) (hw : 1 ≤ w) :
    ∃ s, parallelSort data w = some s ∧
      ∀ wave ∈ s.waves, ∀ (i j : Nat) (a b : Runnable), i < j →
        wave[i]? = some a → wave[j]? = some b →
          a.writeEnd ≤ b.writeStart ∧ ∀ k : Nat, ¬ (a.Writes k ∧ b.Writes k) := by
  obtain ⟨s, more, heq, hwaves, hlen, hk⟩ := parallelSort_closed data w hw
  refine ⟨s, heq, ?_⟩
  have key : ∀ wave ∈ s.waves, ∀ (i j : Nat) (a b : Runnable), i < j →
      wave[i]? = some a → wave[j]? = some b → a.writeEnd ≤ b.writeStart := by
    intro wave hwv i j a b hij hi hj
    rw [hwaves] at hwv
    rcases List.mem_cons.mp hwv with rfl | hwv
    · rw [List.getElem?_map] at hi hj
      obtain ⟨t, ht, rfl⟩ := Option.map_eq_some'.mp hi
      obtain ⟨t', ht', rfl⟩ := Option.map_eq_some'.mp hj
      exact phase1Tasks_ordered _ _ i j t t' hij ht ht'
    · obtain ⟨k, hkl, hkw⟩ := List.getElem_of_mem hwv
      obtain ⟨tasks, id, id', hget, hfor⟩ := hk k (hlen ▸ hkl)
      rw [List.getElem?_eq_getElem hkl, hkw] at hget
      injection hget with hget
      subst hget
      rw [List.getElem?_map] at hi hj
      obtain ⟨t, ht, rfl⟩ := Option.map_eq_some'.mp hi
      obtain ⟨t', ht', rfl⟩ := Option.map_eq_some'.mp hj
      exact mergeFor_wave_ordered _ _ _ _ _ _ tasks hfor i j t t' hij ht ht'
  intro wave hwv i j a b hij hi hj
  have hle := key wave hwv i j a b hij hi hj
  refine ⟨hle, ?_⟩
  rintro k ⟨⟨_, h1⟩, ⟨h2, _⟩⟩
  omega

theorem parallelSort_wave_disjoint_witness :
    1 ≤ 4 ∧ ∃ s, parallelSort [4, 3, 2, 1, 7, 5, 6] 4 = some s ∧
      ∀ wave ∈ s.waves, ∀ (i j : Nat) (a b : Runnable), i < j →
        wave[i]? = some a → wave[j]? = some b →
          a.writeEnd ≤ b.writeStart ∧ ∀ k : Nat, ¬ (a.Writes k ∧ b.Writes k) :=
  ⟨by decide, parallelSort_wave_disjoint [4, 3, 2, 1, 7, 5, 6] 4 (by decide)⟩

/-- C17: for every vector of length `N` and every worker count `w ≥ 1`
(arithmetic over unbounded integers), `parallelSort` returns, every chunk-sort
task it dispatched has `startIndex ≤ endIndex ≤ N` and every merge task it
dispatched has `start1 ≤ end1 = start2 ≤ end2 ≤ N`. -/
theorem parallelSort_tasks_inBounds (data : List Int) (w : Nat) (hw : 1 ≤ w) :
    ∃ s, parallelSort data w = some s ∧
      (∀ t : SortTask, Runnable.sortTask t ∈ s.dispatched →
        t.startIndex ≤ t.endIndex ∧ t.endIndex ≤ data.length) ∧
      (∀ t : MergeTask, Runnable.mergeTask t ∈ s.dispatched →
        t.start1 ≤ t.end1 ∧ t.end1 = t.start2 ∧ t.start2 ≤ t.end2 ∧
          t.end2 ≤ data.length) := by
  obtain ⟨s, more, heq, _, hwaves, hmore⟩ :=
    parallelSort_spec data w hw (fun _ => True) (fun _ _ _ _ => trivial) trivial
  have hall : ∀ r ∈ s.dispatched, r.InBounds data.length := by
    intro r hr
    obtain ⟨wave, hwv, hrw⟩ := List.mem_flatten.mp hr
    rw [hwaves] at hwv
    rcases List.mem_cons.mp hwv with rfl | hwv
    · obtain ⟨t, ht, rfl⟩ := List.mem_map.mp hrw
      exact phase1Tasks_inBounds _ _ t ht
    · exact (hmore wave hwv r hrw).1
  exact ⟨s, heq, fun t ht => hall _ ht, fun t ht => hall _ ht⟩

theorem parallelSort_tasks_inBounds_witness :
    1 ≤ 3 ∧ ∃ s, parallelSort [5, 1, 4, 2, 3] 3 = some s ∧
      (∀ t : SortTask, Runnable.sortTask t ∈ s.dispatched →
        t.startIndex ≤ t.endIndex ∧ t.endIndex ≤ ([5, 1, 4, 2, 3] : List Int).length) ∧
      (∀ t : MergeTask, Runnable.mergeTask t ∈ s.dispatched →
        t.start1 ≤ t.end1 ∧ t.end1 = t.start2 ∧ t.start2 ≤ t.end2 ∧
          t.end2 ≤ ([5, 1, 4, 2, 3] : List Int).length) :=
  ⟨by decide, parallelSort_tasks_inBounds [5, 1, 4, 2, 3] 3 (by decide)⟩

/-- The loop of `isSorted` returns when it has fuel for the indices left, and it
returns `true` exactly when no index from `i` on is smaller than its
predecessor. -/
theorem isSortedLoop_spec (vec : List Int) :
    ∀ (fuel i : Nat), vec.length ≤ i + fuel →
      ∃ b, isSortedLoop vec fuel i = some b ∧
        (b = true ↔ ∀ k, i ≤ k → k < vec.length → vec.getD (k - 1) 0 ≤ vec.getD k 0) := by
  intro fuel
  induction fuel with
  | zero =>
    intro i h
    refine ⟨true, ?_, ?_⟩
    · simp only [isSortedLoop]
      rw [if_neg (by omega)]
    · exact ⟨fun _ k hk hlt => by omega, fun _ => rfl⟩
  | succ fuel ih =>
    intro i h
    by_cases h1 : i < vec.length
    · by_cases h2 : vec.getD i 0 < vec.getD (i - 1) 0
      · refine ⟨false, by simp only [isSortedLoop, if_pos h1, if_pos h2], ?_⟩
        constructor
        · intro hf; cases hf
        · intro hall
          exact absurd (hall i (le_refl i) h1) (not_le.mpr h2)
      · obtain ⟨b, heq, hb⟩ := ih (i + 1) (by omega)
        refine ⟨b, by simp only [isSortedLoop, if_pos h1, if_neg h2, heq], ?_⟩
        rw [hb]
        constructor
        · intro hall k hk hlt
          rcases Nat.eq_or_lt_of_le hk with rfl | hk'
          · exact not_lt.mp h2
          · exact hall k hk' hlt
        · intro hall k hk hlt
          exact hall k (by omega) hlt
    · refine ⟨true, by simp only [isSortedLoop, if_neg h1], ?_⟩
      exact ⟨fun _ k hk hlt => by omega, fun _ => rfl⟩

/-- C18: for every vector, `isSorted` returns, and it returns `true` if and
only if the vector is non-descending (for all `i` in `[1, N)`,
`vec[i-1] ≤ vec[i]`); it returns `true` for the empty and for every
single-element vector. -/
theorem isSorted_iff_nonDescending (vec : List Int) :
    (∃ b, isSorted vec = some b ∧ (b = true ↔ NonDescending vec)) ∧
      isSorted [] = some true ∧ ∀ a : Int, isSorted [a] = some true := by
  refine ⟨isSortedLoop_spec vec vec.length 1 (by omega), rfl, fun a => rfl⟩

/-! ## One and two worker threads -/

theorem slice_getElem? (data : List Int) (a b k : Nat) :
    (slice data a b)[k]? = if k < b - a then data[a + k]? else none := by
  unfold slice
  rw [List.getElem?_take, List.getElem?_drop]

theorem slice_congr (d₁ d₂ : List Int) (a b : Nat)
    (h : ∀ i : Nat, a ≤ i → i < b → d₁[i]? = d₂[i]?) :
    slice d₁ a b = slice d₂ a b := by
  apply List.ext_getElem?
  intro k
  rw [slice_getElem?, slice_getElem?]
  split
  · exact h (a + k) (by omega) (by omega)
  · rfl

theorem slice_full (data : List Int) : slice data 0 data.length = data := by
  unfold slice
  simp

theorem phase1Tasks_one (n : Nat) : phase1Tasks n 1 = [⟨0, n, 0⟩] := by
  have hr : List.range 1 = [0] := rfl
  simp [phase1Tasks, hr]

theorem phase1Tasks_two (n : Nat) :
    phase1Tasks n 2 = [⟨0, n / 2, 0⟩, ⟨n / 2, n, 1⟩] := by
  have hr : List.range 2 = [0, 1] := rfl
  simp [phase1Tasks, hr]

theorem mergeFor_two (n mergeTaskId : Nat) :
    mergeFor n 2 2 2 0 mergeTaskId 0 =
      some ([⟨0, n / 2, n / 2, n, mergeTaskId⟩], mergeTaskId + 1, 1) := by
  simp [mergeFor]

theorem parallelSort_one (data : List Int) :
    parallelSort data 1 =
      some ⟨(SortTask.mk 0 data.length 0).run data,
        [[.sortTask ⟨0, data.length, 0⟩]]⟩ := by
  unfold parallelSort
  rw [if_neg (by decide), phase1Tasks_one]
  simp only [mergeLoop]
  rfl

theorem parallelSort_two (data : List Int) :
    parallelSort data 2 =
      some ⟨(MergeTask.mk 0 (data.length / 2) (data.length / 2) data.length 0).run
          ((SortTask.mk (data.length / 2) data.length 1).run
            ((SortTask.mk 0 (data.length / 2) 0).run data)),
        [[.sortTask ⟨0, data.length / 2, 0⟩, .sortTask ⟨data.length / 2, data.length, 1⟩],
         [.mergeTask ⟨0, data.length / 2, data.length / 2, data.length, 0⟩]]⟩ := by
  unfold parallelSort
  rw [if_neg (by decide), phase1Tasks_two]
  simp only [mergeLoop, mergeFor_two]
  rfl

theorem slice_all (d : List Int) (n : Nat) (h : d.length = n) : slice d 0 n = d := by
  subst h
  exact slice_full d

theorem sortTask_run_slice (t : SortTask) (data : List Int) (h : t.InBounds data.length) :
    slice (t.run data) t.startIndex t.endIndex =
      stdSort (slice data t.startIndex t.endIndex) := by
  apply slice_overwrite data _ t.startIndex t.endIndex h.1 h.2
  rw [(stdSort_perm _).length_eq, slice_length data _ _ h.2]

theorem sortTask_run_slice_before (t : SortTask) (data : List Int)
    (h : t.InBounds data.length) (a b : Nat) (hb : b ≤ t.startIndex) :
    slice (t.run data) a b = slice data a b := by
  apply slice_congr
  intro i _ hi
  exact overwrite_getElem?_lt data _ t.startIndex i (le_trans h.1 h.2) (by omega)

theorem mergeTask_run_slice (t : MergeTask) (data : List Int) (h : t.InBounds data.length) :
    slice (t.run data) t.start1 t.end2 = t.temp data :=
  slice_overwrite data _ t.start1 t.end2 (mergeTask_start1_le_end2 t _ h) h.2.2.2
    (mergeTask_temp_length t data h)

/-- With one worker thread the whole vector is one chunk and the run leaves
`std::sort` of it. -/
theorem sorted_one_thread (data : List Int) :
    ((SortTask.mk 0 data.length 0).run data).Sorted (· ≤ ·) ∧
      ((SortTask.mk 0 data.length 0).run data).Perm data := by
  have hb : (SortTask.mk 0 data.length 0).InBounds data.length := ⟨Nat.zero_le _, le_refl _⟩
  have hlen := sortTask_run_length _ data hb
  have hs := sortTask_run_slice _ data hb
  dsimp only at hs
  rw [slice_all _ _ hlen] at hs
  rw [hs]
  exact ⟨stdSort_sorted _, (stdSort_perm _).trans (by rw [slice_full])⟩

/-- With two worker threads the two halves are sorted and the single merge
task merges exactly these halves. -/
theorem sorted_two_threads (data : List Int) :
    ((MergeTask.mk 0 (data.length / 2) (data.length / 2) data.length 0).run
      ((SortTask.mk (data.length / 2) data.length 1).run
        ((SortTask.mk 0 (data.length / 2) 0).run data))).Sorted (· ≤ ·) ∧
    ((MergeTask.mk 0 (data.length / 2) (data.length / 2) data.length 0).run
      ((SortTask.mk (data.length / 2) data.length 1).run
        ((SortTask.mk 0 (data.length / 2) 0).run data))).Perm data := by
  have hh : data.length / 2 ≤ data.length := Nat.div_le_self _ _
  generalize hd1 : (SortTask.mk 0 (data.length / 2) 0).run data = d1
  generalize hd2 : (SortTask.mk (data.length / 2) data.length 1).run d1 = d2
  generalize hd3 :
    (MergeTask.mk 0 (data.length / 2) (data.length / 2) data.length 0).run d2 = d3
  have hb0 : (SortTask.mk 0 (data.length / 2) 0).InBounds data.length := ⟨Nat.zero_le _, hh⟩
  have hl1 : d1.length = data.length := by rw [← hd1]; exact sortTask_run_length _ data hb0
  have hb1 : (SortTask.mk (data.length / 2) data.length 1).InBounds d1.length := by
    rw [hl1]; exact ⟨hh, le_refl _⟩
  have hl2 : d2.length = data.length := by
    rw [← hd2, sortTask_run_length _ d1 hb1, hl1]
  have hbm : (MergeTask.mk 0 (data.length / 2) (data.length / 2) data.length 0).InBounds
      d2.length := by
    rw [hl2]; exact ⟨Nat.zero_le _, rfl, hh, le_refl _⟩
  have hl3 : d3.length = data.length := by
    rw [← hd3, mergeTask_run_length _ d2 hbm, hl2]
  have hA1 : (slice d1 0 (data.length / 2)).Sorted (· ≤ ·) := by
    have := sortTask_run_slice _ data hb0
    rw [hd1] at this
    dsimp only at this
    rw [this]
    exact stdSort_sorted _
  have hA2 : (slice d2 0 (data.length / 2)).Sorted (· ≤ ·) := by
    have := sortTask_run_slice_before _ d1 hb1 0 (data.length / 2) (le_refl _)
    rw [hd2] at this
    rw [this]
    exact hA1
  have hB2 : (slice d2 (data.length / 2) data.length).Sorted (· ≤ ·) := by
    have := sortTask_run_slice _ d1 hb1
    rw [hd2] at this
    dsimp only at this
    rw [this]
    exact stdSort_sorted _
  constructor
  · have := mergeTask_run_slice _ d2 hbm
    rw [hd3] at this
    dsimp only at this
    rw [slice_all d3 _ hl3] at this
    rw [this]
    exact stdMerge_sorted _ _ hA2 hB2
  · have p1 : d1.Perm data := by rw [← hd1]; exact sortTask_run_perm _ data hb0
    have p2 : d2.Perm d1 := by rw [← hd2]; exact sortTask_run_perm _ d1 hb1
    have p3 : d3.Perm d2 := by rw [← hd3]; exact mergeTask_run_perm _ d2 hbm
    exact (p3.trans p2).trans p1

/-- C19: with one worker thread and with two, for every vector, `parallelSort`
returns and leaves the vector non-descending and a permutation of the input;
with two threads the waves are the two chunk sorts of `[0, N/2)` and
`[N/2, N)` and one merge task on exactly these two ranges. -/
theorem parallelSort_one_or_two_threads (data : List Int) (w : Nat) (hw : w = 1 ∨ w = 2) :
    ∃ s, parallelSort data w = some s ∧ NonDescending s.data ∧ s.data.Perm data ∧
      (w = 2 → s.waves =
        [[.sortTask ⟨0, data.length / 2, 0⟩, .sortTask ⟨data.length / 2, data.length, 1⟩],
         [.mergeTask ⟨0, data.length / 2, data.length / 2, data.length, 0⟩]]) := by
  rcases hw with rfl | rfl
  · refine ⟨_, parallelSort_one data, ?_, (sorted_one_thread data).2, by intro h; cases h⟩
    rw [nonDescending_iff_sorted]
    exact (sorted_one_thread data).1
  · refine ⟨_, parallelSort_two data, ?_, (sorted_two_threads data).2, fun _ => rfl⟩
    rw [nonDescending_iff_sorted]
    exact (sorted_two_threads data).1

theorem parallelSort_one_or_two_threads_witness :
    (2 = 1 ∨ 2 = 2) ∧
    ∃ s, parallelSort [4, 3, 2, 1, 7, 5, 6] 2 = some s ∧ NonDescending s.data ∧
      s.data.Perm [4, 3, 2, 1, 7, 5, 6] ∧
      (2 = 2 → s.waves =
        [[.sortTask ⟨0, ([4, 3, 2, 1, 7, 5, 6] : List Int).length / 2, 0⟩,
          .sortTask ⟨([4, 3, 2, 1, 7, 5, 6] : List Int).length / 2,
            ([4, 3, 2, 1, 7, 5, 6] : List Int).length, 1⟩],
         [.mergeTask ⟨0, ([4, 3, 2, 1, 7, 5, 6] : List Int).length / 2,
            ([4, 3, 2, 1, 7, 5, 6] : List Int).length / 2,
            ([4, 3, 2, 1, 7, 5, 6] : List Int).length, 0⟩]]) :=
  ⟨Or.inr rfl, parallelSort_one_or_two_threads [4, 3, 2, 1, 7, 5, 6] 2 (Or.inr rfl)⟩

end ParallelSort
